import Mathlib

/-!
Verification of the Darwin import scanner core.

Strings are modelled as `List Char`; text offsets are `Nat`.  JavaScript
regular expressions used by the source are translated either into
character-level scanners (with the backtracking behaviour worked out by
hand where the character classes make the match deterministic) or into a
small executable backtracking regex engine that mirrors JS ordered-choice
and greedy-quantifier semantics.
-/

namespace Darwin

/-- ASCII part of the JS `\s` class (the source never feeds non-ASCII
whitespace to these scanners). -/
def jsSpace (c : Char) : Bool :=
  c = ' ' || c = '\t' || c = '\n' || c = '\r' || c = '\x0b' || c = '\x0c'

/-- The JS `\w` class: `[A-Za-z0-9_]`. -/
def isWordChar (c : Char) : Bool :=
  c.isAlphanum || c = '_'

/-- The class `[\w.]` used by the Python import regexes. -/
def wordDotChar (c : Char) : Bool :=
  isWordChar c || c = '.'

/-- JS `String.prototype.split` with a single-character separator:
`"".split(c) = [""]`, separators at the ends produce empty segments. -/
def splitOnChar (sep : Char) : List Char → List (List Char)
  | [] => [[]]
  | c :: cs =>
    if c = sep then [] :: splitOnChar sep cs
    else
      match splitOnChar sep cs with
      | [] => [[c]]
      | h :: t => (c :: h) :: t

/-- JS `String.prototype.trim` (ASCII whitespace). -/
def jsTrim (s : List Char) : List Char :=
  ((s.dropWhile jsSpace).reverse.dropWhile jsSpace).reverse

/-- JS `String.prototype.trimEnd`. -/
def jsTrimEnd (s : List Char) : List Char :=
  (s.reverse.dropWhile jsSpace).reverse

/-- Index of the first occurrence of a character
(JS `indexOf`; `none` plays the role of `-1`). -/
def firstIdxOf (c : Char) : List Char → Option Nat
  | [] => none
  | x :: xs => if x = c then some 0 else (firstIdxOf c xs).map (· + 1)

/-- `BaseParser.getTopLevelPackage` (src/unnamed/part_000, lines 35-52).
Scoped paths keep their first two `/`-segments; other paths are cut at the
first `/` only when it sits at a positive index (JS `indexOf` returns -1
when absent and the source tests `slashIndex > 0`). -/
def getTopLevelPackage (importPath : List Char) : List Char :=
  if importPath.head? = some '@' then
    match splitOnChar '/' importPath with
    | p0 :: p1 :: _ => p0 ++ '/' :: p1
    | _ => importPath
  else
    match firstIdxOf '/' importPath with
    | some i => if 0 < i then importPath.take i else importPath
    | none => importPath

/-- Modelled from the claim wording (C7): scoped paths keep the first two
`/`-delimited segments, other paths return the substring before the first
`/` whenever a `/` exists (with no positivity requirement on its index). -/
def specResolverC7 (p : List Char) : List Char :=
  if p.head? = some '@' then
    match splitOnChar '/' p with
    | s0 :: s1 :: _ => s0 ++ '/' :: s1
    | _ => p
  else
    match firstIdxOf '/' p with
    | some i => p.take i
    | none => p

/-- Modelled from the amended claim wording (C7): like `specResolverC7`,
except that in the unscoped branch the path is cut only when the first `/`
sits at a positive index, so a path with a leading `/` is returned
unchanged.  Phrased with `takeWhile`/membership rather than index
arithmetic. -/
def specResolverC7Amended (p : List Char) : List Char :=
  if p.head? = some '@' then
    match splitOnChar '/' p with
    | s0 :: s1 :: _ => s0 ++ '/' :: s1
    | _ => p
  else
    if '/' ∈ p ∧ p.head? ≠ some '/' then p.takeWhile (fun c => c != '/')
    else p

lemma splitOnChar_ne_nil (sep : Char) (s : List Char) : splitOnChar sep s ≠ [] := by
  cases s with
  | nil => simp [splitOnChar]
  | cons c cs =>
    simp only [splitOnChar]
    split
    · simp
    · split <;> simp

lemma splitOnChar_not_mem (sep : Char) (s : List Char) :
    ∀ l ∈ splitOnChar sep s, sep ∉ l := by
  induction s with
  | nil => simp [splitOnChar]
  | cons c cs ih =>
    intro l hl
    simp only [splitOnChar] at hl
    split at hl
    · rcases List.mem_cons.mp hl with h | h
      · subst h; simp
      · exact ih l h
    · rename_i hc
      rcases hsp : splitOnChar sep cs with _ | ⟨h0, t0⟩
      · exact absurd hsp (splitOnChar_ne_nil sep cs)
      · rw [hsp] at hl
        rcases List.mem_cons.mp hl with h | h
        · subst h
          intro hmem
          rcases List.mem_cons.mp hmem with h' | h'
          · exact hc h'.symm
          · exact ih h0 (by rw [hsp]; exact List.mem_cons_self _ _) h'
        · exact ih l (by rw [hsp]; exact List.mem_cons_of_mem _ h)


lemma splitOnChar_head (sep : Char) (s : List Char) :
    (splitOnChar sep s).head? = some (s.takeWhile (fun c => c != sep)) := by
  induction s with
  | nil => rfl
  | cons c cs ih =>
    by_cases hc : c = sep
    · subst hc
      simp [splitOnChar, List.takeWhile_cons]
    · simp only [splitOnChar, if_neg hc]
      rcases hsp : splitOnChar sep cs with _ | ⟨h0, t0⟩
      · exact absurd hsp (splitOnChar_ne_nil sep cs)
      · rw [hsp] at ih
        simp only [List.head?, Option.some.injEq] at ih
        simp only [List.head?, List.takeWhile_cons, Option.some.injEq]
        rw [if_pos (by simp [hc]), ih]

lemma splitOnChar_single (sep : Char) (s : List Char) (h : sep ∉ s) :
    splitOnChar sep s = [s] := by
  induction s with
  | nil => rfl
  | cons c cs ih =>
    have hc : ¬ c = sep := fun hcc => h (by simp [hcc])
    simp only [splitOnChar, if_neg hc,
      ih (fun hm => h (List.mem_cons_of_mem _ hm))]


lemma splitOnChar_append (sep : Char) (a b : List Char) (h : sep ∉ a) :
    splitOnChar sep (a ++ sep :: b) = a :: splitOnChar sep b := by
  induction a with
  | nil => simp [splitOnChar]
  | cons c cs ih =>
    have hc : ¬ c = sep := fun hcc => h (by simp [hcc])
    have ih' := ih (fun hm => h (List.mem_cons_of_mem _ hm))
    show splitOnChar sep (c :: (cs ++ sep :: b)) = (c :: cs) :: splitOnChar sep b
    simp only [splitOnChar, if_neg hc]
    rw [ih']

lemma firstIdxOf_eq_none (c : Char) (s : List Char) (h : c ∉ s) :
    firstIdxOf c s = none := by
  induction s with
  | nil => rfl
  | cons x xs ih =>
    have hx : ¬ x = c := fun hxc => h (by simp [hxc])
    simp [firstIdxOf, hx, ih (fun hm => h (List.mem_cons_of_mem _ hm))]

lemma firstIdxOf_none_not_mem (c : Char) (s : List Char)
    (h : firstIdxOf c s = none) : c ∉ s := by
  induction s with
  | nil => simp
  | cons x xs ih =>
    simp only [firstIdxOf] at h
    split at h
    · simp at h
    · rename_i hx
      rcases hrec : firstIdxOf c xs with _ | j
      · intro hm
        rcases List.mem_cons.mp hm with h' | h'
        · exact hx h'.symm
        · exact ih hrec h'
      · rw [hrec] at h; simp at h

lemma firstIdxOf_take (c : Char) (s : List Char) (i : Nat)
    (h : firstIdxOf c s = some i) : c ∉ s.take i := by
  induction s generalizing i with
  | nil => simp
  | cons x xs ih =>
    simp only [firstIdxOf] at h
    split at h
    · have : i = 0 := by simpa using h.symm
      subst this
      simp
    · rename_i hx
      rcases hrec : firstIdxOf c xs with _ | j
      · rw [hrec] at h; simp at h
      · rw [hrec] at h
        simp only [Option.map_some'] at h
        have hi : i = j + 1 := by simpa using h.symm
        subst hi
        simp only [List.take_succ_cons, List.mem_cons]
        rintro (h' | h')
        · exact hx h'.symm
        · exact ih j hrec h'

lemma firstIdxOf_zero_head (c : Char) (s : List Char)
    (h : firstIdxOf c s = some 0) : s.head? = some c := by
  cases s with
  | nil => simp [firstIdxOf] at h
  | cons x xs =>
    simp only [firstIdxOf] at h
    split at h
    · rename_i hx; simp [hx]
    · rcases hrec : firstIdxOf c xs with _ | j
      · rw [hrec] at h; simp at h
      · rw [hrec] at h; simp at h

lemma firstIdxOf_mem (c : Char) (s : List Char) (i : Nat)
    (h : firstIdxOf c s = some i) : c ∈ s := by
  by_contra hm
  rw [firstIdxOf_eq_none c s hm] at h
  exact Option.noConfusion h

lemma firstIdxOf_take_eq_takeWhile (c : Char) (s : List Char) (i : Nat)
    (h : firstIdxOf c s = some i) :
    s.take i = s.takeWhile (fun x => x != c) := by
  induction s generalizing i with
  | nil => simp
  | cons x xs ih =>
    simp only [firstIdxOf] at h
    split at h
    · rename_i hx
      have : i = 0 := by simpa using h.symm
      subst this
      simp [List.takeWhile_cons, hx]
    · rename_i hx
      rcases hrec : firstIdxOf c xs with _ | j
      · rw [hrec] at h; simp at h
      · rw [hrec] at h
        simp only [Option.map_some'] at h
        have hi : i = j + 1 := by simpa using h.symm
        subst hi
        simp only [List.take_succ_cons, List.takeWhile_cons]
        rw [if_pos (by simpa using hx), ih j hrec]

lemma head?_take (s : List Char) (i : Nat) (h : 0 < i) :
    (s.take i).head? = s.head? := by
  cases s with
  | nil => simp
  | cons x xs =>
    cases i with
    | zero => omega
    | succ j => simp

/-- C7 counterexample input: the path "/a". -/
def c7CexPath : List Char := ['/', 'a']

/-- C7: the claim, read literally, says a module path is cut at its first
`/` whenever one exists, so `"/a"` should resolve to `""`; the code keeps
`"/a"` unchanged because it cuts only at a `/` with positive index. -/
theorem c7_counterexample :
    specResolverC7 c7CexPath = [] ∧
    getTopLevelPackage c7CexPath = c7CexPath ∧
    getTopLevelPackage c7CexPath ≠ specResolverC7 c7CexPath := by
  refine ⟨by decide, by decide, by decide⟩

/-- C7 (amended): the Package Identity Resolver returns, for paths
beginning with `@`, the first two `/`-delimited segments joined by `/`
(the path unchanged when it has fewer than two segments); otherwise the
substring before the first `/` when that `/` occurs at a positive index,
else the whole path (in particular a leading-`/` path is unchanged). -/
theorem c7_amended_resolver_spec (p : List Char) :
    getTopLevelPackage p = specResolverC7Amended p := by
  by_cases hat : p.head? = some '@'
  · unfold getTopLevelPackage specResolverC7Amended
    rw [if_pos hat, if_pos hat]
  · unfold getTopLevelPackage specResolverC7Amended
    rw [if_neg hat, if_neg hat]
    rcases hfi : firstIdxOf '/' p with _ | i
    · have hnm : '/' ∉ p := firstIdxOf_none_not_mem _ _ hfi
      show p = _
      rw [if_neg (by intro hand; exact hnm hand.1)]
    · show (if 0 < i then p.take i else p) = _
      by_cases hi : 0 < i
      · have hhead : p.head? ≠ some '/' := by
          intro hh
          cases p with
          | nil => simp at hh
          | cons x xs =>
            simp only [List.head?, Option.some.injEq] at hh
            subst hh
            simp [firstIdxOf] at hfi
            omega
        rw [if_pos hi, if_pos ⟨firstIdxOf_mem _ _ _ hfi, hhead⟩]
        exact firstIdxOf_take_eq_takeWhile _ _ _ hfi
      · have hz : i = 0 := by omega
        subst hz
        rw [if_neg hi]
        have hhead := firstIdxOf_zero_head _ _ hfi
        rw [if_neg (by intro hand; exact hand.2 hhead)]

/-- C9: the Package Identity Resolver is idempotent:
`resolve (resolve p) = resolve p` for every module-path string. -/
theorem getTopLevelPackage_idem (p : List Char) :
    getTopLevelPackage (getTopLevelPackage p) = getTopLevelPackage p := by
  by_cases hat : p.head? = some '@'
  · rcases hsp : splitOnChar '/' p with _ | ⟨p0, t⟩
    · exact absurd hsp (splitOnChar_ne_nil '/' p)
    · rcases t with _ | ⟨p1, t'⟩
      · -- fewer than two segments: the resolver returns p unchanged
        have hgp : getTopLevelPackage p = p := by
          unfold getTopLevelPackage
          rw [if_pos hat, hsp]
        rw [hgp]
        exact hgp
      · -- at least two segments: the result is p0 ++ '/' :: p1
        have hgp : getTopLevelPackage p = p0 ++ '/' :: p1 := by
          unfold getTopLevelPackage
          rw [if_pos hat, hsp]
        -- p0 is the first segment of p, hence starts with '@'
        have hp0 : p0 = p.takeWhile (fun c => c != '/') := by
          have hh := splitOnChar_head '/' p
          rw [hsp] at hh
          simpa using hh
        obtain ⟨ptl, hptl⟩ : ∃ tl, p = '@' :: tl := by
          cases p with
          | nil => simp at hat
          | cons x xs =>
            simp only [List.head?, Option.some.injEq] at hat
            exact ⟨xs, by rw [hat]⟩
        have hp0head : p0.head? = some '@' := by
          rw [hp0, hptl]
          simp [List.takeWhile_cons]
        have hrhead : (p0 ++ '/' :: p1).head? = some '@' := by
          cases hp0e : p0 with
          | nil => rw [hp0e] at hp0head; simp at hp0head
          | cons y ys =>
            rw [hp0e] at hp0head
            simp only [List.head?, Option.some.injEq] at hp0head
            simp [hp0head]
        have hnm0 : '/' ∉ p0 :=
          splitOnChar_not_mem '/' p p0 (by rw [hsp]; exact List.mem_cons_self _ _)
        have hnm1 : '/' ∉ p1 :=
          splitOnChar_not_mem '/' p p1
            (by rw [hsp]; exact List.mem_cons_of_mem _ (List.mem_cons_self _ _))
        have hsp2 : splitOnChar '/' (p0 ++ '/' :: p1) = [p0, p1] := by
          rw [splitOnChar_append '/' p0 p1 hnm0, splitOnChar_single '/' p1 hnm1]
        rw [hgp]
        unfold getTopLevelPackage
        rw [if_pos hrhead, hsp2]
  · rcases hfi : firstIdxOf '/' p with _ | i
    · have hgp : getTopLevelPackage p = p := by
        unfold getTopLevelPackage
        rw [if_neg hat, hfi]
      rw [hgp]
      exact hgp
    · by_cases hi : 0 < i
      · have hgp : getTopLevelPackage p = p.take i := by
          unfold getTopLevelPackage
          rw [if_neg hat, hfi]
          show (if 0 < i then p.take i else p) = p.take i
          rw [if_pos hi]
        have hrhead : (p.take i).head? ≠ some '@' := by
          rw [head?_take p i hi]; exact hat
        have hrfi : firstIdxOf '/' (p.take i) = none :=
          firstIdxOf_eq_none _ _ (firstIdxOf_take '/' p i hfi)
        rw [hgp]
        unfold getTopLevelPackage
        rw [if_neg hrhead, hrfi]
      · have hz : i = 0 := by omega
        subst hz
        have hgp : getTopLevelPackage p = p := by
          unfold getTopLevelPackage
          rw [if_neg hat, hfi]
          show (if 0 < 0 then p.take 0 else p) = p
          rw [if_neg hi]
        rw [hgp]
        exact hgp

/-! ## Data model (src/src/models/importInfo.ts, usageInfo.ts) -/

/-- A (line, character) pair in a document. -/
structure Pos where
  line : Nat
  character : Nat
deriving DecidableEq, Repr

/-- A source range, `vscode.Range` flattened into its four coordinates. -/
structure Range where
  startLine : Nat
  startChar : Nat
  endLine : Nat
  endChar : Nat
deriving DecidableEq, Repr

inductive Language where
  | python
  | javascript
  | typescript
deriving DecidableEq, Repr

/-- `ImportInfo` (src/src/models/importInfo.ts, lines 6-30).  Optional
fields absent from a record are `none`. -/
structure ImportInfo where
  packageName : List Char
  importStatement : List Char
  language : Language
  range : Range
  fileUri : List Char
  namedImports : Option (List (List Char)) := none
  isDefaultImport : Option Bool := none
  isRequire : Option Bool := none
deriving DecidableEq, Repr

/-- `ParseResult` (src/src/models/importInfo.ts). -/
structure ParseResult where
  imports : List ImportInfo
  errors : List (List Char)
deriving DecidableEq, Repr

/-- The part of `vscode.TextDocument` the scanners read: a language tag,
the full text, and a URI.  Text is `\n`-separated. -/
structure TextDocument where
  languageId : List Char
  text : List Char
  uri : List Char := []
deriving DecidableEq, Repr

/-- `BaseParser.isRelativeImport` (src/unnamed/part_000, lines 27-29). -/
def isRelativeImport (packageName : List Char) : Bool :=
  packageName.head? = some '.' || packageName.head? = some '/'

/-! ## Python import extractor (src/unnamed/part_001, PythonParser)

The three line regexes are anchored (`^...`) and applied to the trimmed
line, so each is modelled as a deterministic character-level matcher; the
only backtracking the JS engine can perform in them is between a `\s+`
and a following class that also accepts whitespace, which is worked out
below where it occurs. -/

/-- Require at least one `\s`, then consume the maximal whitespace run
(the only split a JS engine can choose when the next atom cannot start
with whitespace). -/
def dropWs1 (s : List Char) : Option (List Char) :=
  match s with
  | c :: rest => if jsSpace c then some (rest.dropWhile jsSpace) else none
  | [] => none

def kwFrom : List Char := "from".data
def kwImport : List Char := "import".data
def kwAs : List Char := "as".data

/-- `FROM_IMPORT_REGEX = /^from\s+([\w.]+)\s+import\s+(.+)/` on a trimmed
line; returns (group 1, group 2).  `([\w.]+)` is maximal-munch (a shorter
run would leave a `[\w.]` character where `\s+` must match).  In
`\s+(.+)`, when the line ends in whitespace the greedy `\s+` gives one
character back so that `(.+)` can match it; with fewer than two trailing
whitespace characters there is no match. -/
def pyFromMatch (line : List Char) : Option (List Char × List Char) :=
  if kwFrom.isPrefixOf line then
    match dropWs1 (line.drop 4) with
    | none => none
    | some r1 =>
      let pkg := r1.takeWhile wordDotChar
      if pkg = [] then none
      else
        match dropWs1 (r1.drop pkg.length) with
        | none => none
        | some r3 =>
          if kwImport.isPrefixOf r3 then
            let r4 := r3.drop 6
            let ws := r4.takeWhile jsSpace
            let r5 := r4.drop ws.length
            if r5 ≠ [] then
              if ws = [] then none else some (pkg, r5)
            else if 2 ≤ ws.length then some (pkg, [ws.getLastD ' '])
            else none
          else none
  else none

/-- The class `[\w.\s,]` of `MULTI_IMPORT_REGEX`. -/
def multiClassChar (c : Char) : Bool :=
  isWordChar c || c = '.' || jsSpace c || c = ','

/-- `MULTI_IMPORT_REGEX = /^import\s+([\w.\s,]+)/` on a trimmed line;
returns group 1.  The greedy `\s+` first takes the whole whitespace run;
if the class run after it is empty the engine backtracks one whitespace
character, which then satisfies the class itself (the class contains
`\s`), so the group becomes that single whitespace character. -/
def pyMultiMatch (line : List Char) : Option (List Char) :=
  if kwImport.isPrefixOf line then
    let rest := line.drop 6
    let ws := rest.takeWhile jsSpace
    if ws = [] then none
    else
      let cls := (rest.drop ws.length).takeWhile multiClassChar
      if cls ≠ [] then some cls
      else if 2 ≤ ws.length then some [ws.getLastD ' ']
      else none
  else none

/-- `IMPORT_REGEX = /^import\s+([\w.]+)(?:\s+as\s+\w+)?/` on a trimmed
line; only group 1 is used by the parser. -/
def pySimpleMatch (line : List Char) : Option (List Char) :=
  if kwImport.isPrefixOf line then
    match dropWs1 (line.drop 6) with
    | some r =>
      let pkg := r.takeWhile wordDotChar
      if pkg = [] then none else some pkg
    | none => none
  else none

/-- Is a position inside the string the start of a match of `\s+as\s+`?
Greedy `\s+` must take the maximal whitespace run (the literal `as`
cannot start with whitespace), so the test is deterministic. -/
def asBoundary (s : List Char) : Bool :=
  match s.dropWhile jsSpace with
  | 'a' :: 's' :: c :: _ => jsSpace c
  | _ => false

/-- `parts[0]` of JS `s.split(/\s+as\s+/)`: the prefix of `s` before the
leftmost match of `\s+as\s+` (the whole of `s` if there is none). -/
def asSplitHead : List Char → List Char
  | [] => []
  | c :: rest =>
    if jsSpace c ∧ asBoundary (c :: rest) then []
    else c :: asSplitHead rest

/-- `PythonParser.parseNamedImports` (src/unnamed/part_001, lines
223-235): strip parentheses, split on commas, keep the part before an
`as`-alias, trim, drop empties and `*`. -/
def pyParseNamedImports (content : List Char) : List (List Char) :=
  let c := content.filter (fun ch => ch ≠ '(' ∧ ch ≠ ')')
  ((splitOnChar ',' c).map (fun item => jsTrim (asSplitHead (jsTrim item)))).filter
    (fun name => name ≠ [] ∧ name ≠ ['*'])

/-- `PythonParser.getLineRange` (src/unnamed/part_001, lines 237-243). -/
def pyLineRange (lines : List (List Char)) (i : Nat) : Range :=
  ⟨i, 0, i, (lines.getD i []).length⟩

/-- The parenthesis continuation loop of `parseFromImport`
(src/unnamed/part_001, lines 162-167): while the current end line is not
the last line and contains no `)`, consume the next line. -/
def pyParenScan (lines : List (List Char)) : Nat → Nat → List Char → Nat × List Char
  | 0, endLine, content => (endLine, content)
  | fuel + 1, endLine, content =>
    if endLine < lines.length - 1 ∧ ¬ ')' ∈ lines.getD endLine [] then
      pyParenScan lines fuel (endLine + 1)
        (content ++ ' ' :: jsTrim (lines.getD (endLine + 1) []))
    else (endLine, content)

/-- The backslash continuation loop of `parseFromImport`
(src/unnamed/part_001, lines 170-173). -/
def pyBackslashScan (lines : List (List Char)) : Nat → Nat → List Char → Nat × List Char
  | 0, endLine, content => (endLine, content)
  | fuel + 1, endLine, content =>
    if (jsTrimEnd (lines.getD endLine [])).getLast? = some '\\' ∧
        endLine < lines.length - 1 then
      pyBackslashScan lines fuel (endLine + 1)
        (content ++ ' ' :: jsTrim (lines.getD (endLine + 1) []))
    else (endLine, content)

/-- Continuation handling of `parseFromImport`: the parenthesis loop,
then the backslash loop; returns the final end line and the merged
content. -/
def pyFromEnd (lines : List (List Char)) (startLine : Nat)
    (content : List Char) : Nat × List Char :=
  pyBackslashScan lines lines.length
    (if content.contains '(' ∧ ¬ content.contains ')' then
        pyParenScan lines lines.length startLine content
      else (startLine, content)).1
    (if content.contains '(' ∧ ¬ content.contains ')' then
        pyParenScan lines lines.length startLine content
      else (startLine, content)).2

/-- `PythonParser.parseFromImport` (src/unnamed/part_001, lines 144-196).
Returns the optional record and the next line index. -/
def pyParseFromImport (doc : TextDocument) (lines : List (List Char))
    (startLine : Nat) (packagePath content : List Char) :
    Option ImportInfo × Nat :=
  if packagePath.head? = some '.' then (none, startLine + 1)
  else
    (some {
        packageName := packagePath
        importStatement :=
          (((lines.drop startLine).take
              ((pyFromEnd lines startLine content).1 + 1 - startLine)).intersperse
            ['\n']).flatten
        language := .python
        range := ⟨startLine, 0, (pyFromEnd lines startLine content).1,
          (lines.getD (pyFromEnd lines startLine content).1 []).length⟩
        fileUri := doc.uri
        namedImports :=
          some (pyParseNamedImports (pyFromEnd lines startLine content).2) },
      (pyFromEnd lines startLine content).1 + 1)

/-- `PythonParser.parseMultiImport` (src/unnamed/part_001, lines
198-221): split group 1 on commas, strip `as`-aliases, keep non-empty
non-relative names; every record carries the whole-line range. -/
def pyParseMultiImport (doc : TextDocument) (lines : List (List Char))
    (lineIndex : Nat) (grp : List Char) : List ImportInfo :=
  let packages := (splitOnChar ',' grp).map (fun p => jsTrim (asSplitHead (jsTrim p)))
  packages.filterMap (fun packageName =>
    if packageName ≠ [] ∧ isRelativeImport packageName = false then
      some {
        packageName := packageName
        importStatement := lines.getD lineIndex []
        language := .python
        range := pyLineRange lines lineIndex
        fileUri := doc.uri }
    else none)

/-- The scan loop of `PythonParser.parse` (src/unnamed/part_001, lines
81-142).  `fuel` only bounds the iteration count; every iteration
advances the line index by at least one, so `fuel = lines.length`
reproduces the source's `while` loop exactly.  Nothing in the loop can
throw, so the `errors` list of the source stays empty. -/
def pyParseLoop (doc : TextDocument) (lines : List (List Char)) :
    Nat → Nat → List ImportInfo
  | 0, _ => []
  | fuel + 1, lineIndex =>
    if lineIndex < lines.length then
      let line := jsTrim (lines.getD lineIndex [])
      if line = [] ∨ line.head? = some '#' then
        pyParseLoop doc lines fuel (lineIndex + 1)
      else
        match pyFromMatch line with
        | some pc =>
          match pyParseFromImport doc lines lineIndex pc.1 pc.2 with
          | (some imp, next) => imp :: pyParseLoop doc lines fuel next
          | (none, next) => pyParseLoop doc lines fuel next
        | none =>
          match pyMultiMatch line with
          | some grp =>
            pyParseMultiImport doc lines lineIndex grp ++
              pyParseLoop doc lines fuel (lineIndex + 1)
          | none =>
            match pySimpleMatch line with
            | some pkg =>
              (if isRelativeImport pkg = false then
                  [{ packageName := pkg
                     importStatement := lines.getD lineIndex []
                     language := .python
                     range := pyLineRange lines lineIndex
                     fileUri := doc.uri }]
                else []) ++ pyParseLoop doc lines fuel (lineIndex + 1)
            | none => pyParseLoop doc lines fuel (lineIndex + 1)
    else []

/-- `PythonParser.parse` (src/unnamed/part_001, lines 81-142). -/
def pythonParse (doc : TextDocument) : ParseResult :=
  let lines := splitOnChar '\n' doc.text
  { imports := pyParseLoop doc lines lines.length 0, errors := [] }

/-! ## Deduplicator (src/src/parsers/jstsParser.ts, lines 190-201)

The source inserts records into a JS `Map` keyed by package name (first
insertion wins, insertion order preserved) and returns its values; this
is exactly the first-occurrence filter below. -/

def dedupGo : List (List Char) → List ImportInfo → List ImportInfo
  | _, [] => []
  | seen, imp :: rest =>
    if imp.packageName ∈ seen then dedupGo seen rest
    else imp :: dedupGo (imp.packageName :: seen) rest

/-- `JsTsParser.deduplicateImports`. -/
def deduplicateImports (imports : List ImportInfo) : List ImportInfo :=
  dedupGo [] imports

lemma dedupGo_mem (seen : List (List Char)) (l : List ImportInfo) :
    ∀ r ∈ dedupGo seen l, r ∈ l ∧ r.packageName ∉ seen := by
  induction l generalizing seen with
  | nil => simp [dedupGo]
  | cons imp rest ih =>
    intro r hr
    simp only [dedupGo] at hr
    split at hr
    · rcases ih seen r hr with ⟨h1, h2⟩
      exact ⟨List.mem_cons_of_mem _ h1, h2⟩
    · rename_i hseen
      rcases List.mem_cons.mp hr with h | h
      · subst h
        exact ⟨List.mem_cons_self _ _, hseen⟩
      · rcases ih _ r h with ⟨h1, h2⟩
        exact ⟨List.mem_cons_of_mem _ h1,
          fun hm => h2 (List.mem_cons_of_mem _ hm)⟩

lemma dedupGo_pairwise (seen : List (List Char)) (l : List ImportInfo) :
    List.Pairwise (fun a b => a.packageName ≠ b.packageName) (dedupGo seen l) := by
  induction l generalizing seen with
  | nil => simp [dedupGo]
  | cons imp rest ih =>
    simp only [dedupGo]
    split
    · exact ih seen
    · refine List.Pairwise.cons ?_ (ih _)
      intro b hb hbn
      rcases dedupGo_mem _ _ b hb with ⟨_, hb2⟩
      exact hb2 (by rw [← hbn]; exact List.mem_cons_self _ _)

lemma find?_cons_of_neg_imp (p : ImportInfo → Bool) (a : ImportInfo)
    (l : List ImportInfo) (h : p a = false) :
    List.find? p (a :: l) = List.find? p l := by
  simp [List.find?, h]

lemma find?_cons_of_pos_imp (p : ImportInfo → Bool) (a : ImportInfo)
    (l : List ImportInfo) (h : p a = true) :
    List.find? p (a :: l) = some a := by
  simp [List.find?, h]

lemma dedupGo_find (seen : List (List Char)) (l : List ImportInfo) :
    ∀ r ∈ dedupGo seen l,
      l.find? (fun y => y.packageName == r.packageName) = some r := by
  induction l generalizing seen with
  | nil => simp [dedupGo]
  | cons imp rest ih =>
    intro r hr
    simp only [dedupGo] at hr
    split at hr
    · rename_i hseen
      have hne : (imp.packageName == r.packageName) = false := by
        rcases dedupGo_mem _ _ r hr with ⟨_, h2⟩
        refine beq_eq_false_iff_ne.mpr ?_
        intro heq
        exact h2 (heq ▸ hseen)
      rw [find?_cons_of_neg_imp (fun y => y.packageName == r.packageName)
        imp rest hne]
      exact ih seen r hr
    · rename_i hseen
      rcases List.mem_cons.mp hr with h | h
      · subst h
        rw [find?_cons_of_pos_imp (fun y => y.packageName == r.packageName)
          r rest (by simp)]
      · have hne : (imp.packageName == r.packageName) = false := by
          rcases dedupGo_mem _ _ r h with ⟨_, h2⟩
          refine beq_eq_false_iff_ne.mpr ?_
          intro heq
          exact h2 (heq ▸ List.mem_cons_self _ _)
        rw [find?_cons_of_neg_imp (fun y => y.packageName == r.packageName)
          imp rest hne]
        exact ih _ r h

/-! ## Concrete documents for the claims about the Python extractor -/

/-- A Python file with the same import statement twice. -/
def pyDocTwoOs : TextDocument :=
  { languageId := "python".data, text := "import os\nimport os".data, uri := [] }

/-- A Python file with one multi-import line. -/
def pyDocMulti : TextDocument :=
  { languageId := "python".data, text := "import a, b".data, uri := [] }

/-- A Python file with one aliased from-import. -/
def pyDocFromAs : TextDocument :=
  { languageId := "python".data, text := "from x import b as c".data, uri := [] }

/-- C1 counterexample: the Python extractor does not deduplicate — a
Python file containing two `import os` lines produces two ImportRecords
for `os`, not one. -/
theorem c1_counterexample :
    ((pythonParse pyDocTwoOs).imports.filter
      (fun r => r.packageName == "os".data)).length = 2 := by rfl

/-- C1 (amended): deduplication by canonical package name happens only in
the JS/TS parser: `deduplicateImports` keeps exactly the first record of
each package name (pairwise-distinct names, each kept record being the
first in the input with its name), while the Python extractor keeps
duplicates — two `import os` lines yield two records. -/
theorem c1_amended_dedup (l : List ImportInfo) :
    (List.Pairwise (fun a b => a.packageName ≠ b.packageName)
        (deduplicateImports l) ∧
      ∀ r ∈ deduplicateImports l,
        l.find? (fun y => y.packageName == r.packageName) = some r) ∧
    ((pythonParse pyDocTwoOs).imports.filter
      (fun r => r.packageName == "os".data)).length = 2 :=
  ⟨⟨dedupGo_pairwise [] l, dedupGo_find [] l⟩, by rfl⟩

/-- First record used by the C1 witness. -/
def impOsA : ImportInfo :=
  { packageName := "os".data, importStatement := "import os".data,
    language := .python, range := ⟨0, 0, 0, 9⟩, fileUri := [] }

/-- Second record (same package) used by the C1 witness. -/
def impOsB : ImportInfo :=
  { packageName := "os".data, importStatement := "import os".data,
    language := .python, range := ⟨1, 0, 1, 9⟩, fileUri := [] }

/-- C1 witness: on a concrete duplicate list, the kept record is the
first occurrence. -/
theorem c1_amended_dedup_witness :
    [impOsA, impOsB].find?
      (fun y => y.packageName == impOsA.packageName) = some impOsA :=
  (c1_amended_dedup [impOsA, impOsB]).1.2 impOsA (by decide)

/-- C2 counterexample: for `from x import b as c` the produced record's
`namedImports` is `["b"]` — the original name — whereas the claim says
the alias `c` should appear instead. -/
theorem c2_counterexample :
    ((pythonParse pyDocFromAs).imports.map (fun r => r.namedImports)) =
        [some [['b']]] ∧
    (((pythonParse pyDocFromAs).imports.map
        (fun r => r.namedImports.getD [])).flatten).contains ['c'] = false := by
  exact ⟨by rfl, by rfl⟩

/-- C3 counterexample: the two records produced from the single Python
line `import a, b` both carry the full-line range (0,0)–(0,11); their
source ranges coincide and therefore overlap. -/
theorem c3_counterexample :
    ((pythonParse pyDocMulti).imports.map (fun r => (r.packageName, r.range))) =
      [(['a'], ⟨0, 0, 0, 11⟩), (['b'], ⟨0, 0, 0, 11⟩)] := by rfl

/-! ## C3: range separation of records from one Python extractor pass -/

/-- Two records' ranges either coincide or live on disjoint line
intervals. -/
def rangesSeparated (r1 r2 : ImportInfo) : Prop :=
  r1.range = r2.range ∨ r1.range.endLine < r2.range.startLine ∨
    r2.range.endLine < r1.range.startLine

lemma pyParenScan_ge (lines : List (List Char)) :
    ∀ fuel e c, e ≤ (pyParenScan lines fuel e c).1 := by
  intro fuel
  induction fuel with
  | zero => intro e c; exact le_refl e
  | succ n ih =>
    intro e c
    simp only [pyParenScan]
    split
    · exact le_trans (Nat.le_succ e) (ih (e + 1) _)
    · exact le_refl e

lemma pyBackslashScan_ge (lines : List (List Char)) :
    ∀ fuel e c, e ≤ (pyBackslashScan lines fuel e c).1 := by
  intro fuel
  induction fuel with
  | zero => intro e c; exact le_refl e
  | succ n ih =>
    intro e c
    simp only [pyBackslashScan]
    split
    · exact le_trans (Nat.le_succ e) (ih (e + 1) _)
    · exact le_refl e

lemma pyFromEnd_ge (lines : List (List Char)) (i : Nat) (c : List Char) :
    i ≤ (pyFromEnd lines i c).1 := by
  unfold pyFromEnd
  refine le_trans ?_ (pyBackslashScan_ge lines lines.length _ _)
  split
  · exact pyParenScan_ge lines lines.length i c
  · exact le_refl i

lemma pyParseFromImport_spec (doc : TextDocument) (lines : List (List Char))
    (i : Nat) (pkg content : List Char) :
    (∀ imp, (pyParseFromImport doc lines i pkg content).1 = some imp →
        imp.range.startLine = i ∧
        imp.range.endLine + 1 = (pyParseFromImport doc lines i pkg content).2) ∧
      i + 1 ≤ (pyParseFromImport doc lines i pkg content).2 := by
  unfold pyParseFromImport
  split
  · refine ⟨fun imp h => absurd h (by simp), by simp⟩
  · constructor
    · intro imp h
      simp only [Option.some.injEq] at h
      subst h
      exact ⟨rfl, rfl⟩
    · simp only []
      have := pyFromEnd_ge lines i content
      omega

lemma pyParseMultiImport_range (doc : TextDocument) (lines : List (List Char))
    (i : Nat) (grp : List Char) :
    ∀ r ∈ pyParseMultiImport doc lines i grp, r.range = pyLineRange lines i := by
  intro r hr
  simp only [pyParseMultiImport, List.mem_filterMap] at hr
  obtain ⟨p, _, hsome⟩ := hr
  split at hsome
  · simp only [Option.some.injEq] at hsome
    subst hsome
    rfl
  · exact absurd hsome (by simp)

lemma pyParseLoop_lo (doc : TextDocument) (lines : List (List Char)) :
    ∀ fuel i r, r ∈ pyParseLoop doc lines fuel i → i ≤ r.range.startLine := by
  intro fuel
  induction fuel with
  | zero => intro i r hr; simp [pyParseLoop] at hr
  | succ n ih =>
    intro i r hr
    simp only [pyParseLoop] at hr
    split at hr
    · split at hr
      · exact le_trans (Nat.le_succ i) (ih (i + 1) r hr)
      · split at hr
        · -- from-import matched
          split at hr
          · -- record produced
            rename_i pc hpc X imp next heq
            have hspec := pyParseFromImport_spec doc lines i pc.1 pc.2
            rw [heq] at hspec
            rcases List.mem_cons.mp hr with h | h
            · subst h
              rw [(hspec.1 r rfl).1]
            · have hnext : i ≤ next := le_trans (Nat.le_succ i) hspec.2
              exact le_trans hnext (ih next r h)
          · rename_i pc hpc X next heq
            have hspec := pyParseFromImport_spec doc lines i pc.1 pc.2
            rw [heq] at hspec
            have hnext : i ≤ next := le_trans (Nat.le_succ i) hspec.2
            exact le_trans hnext (ih next r hr)
        · split at hr
          · -- multi-import matched
            rename_i grp heqg
            rcases List.mem_append.mp hr with h | h
            · rw [pyParseMultiImport_range doc lines i grp r h]
              exact le_refl i
            · exact le_trans (Nat.le_succ i) (ih (i + 1) r h)
          · split at hr
            · -- simple import matched
              rcases List.mem_append.mp hr with h | h
              · split at h
                · rcases List.mem_singleton.mp h with rfl
                  exact le_refl i
                · simp at h
              · exact le_trans (Nat.le_succ i) (ih (i + 1) r h)
            · exact le_trans (Nat.le_succ i) (ih (i + 1) r hr)
    · simp at hr

lemma segment_sep (E T : List ImportInfo) (next : Nat)
    (hE1 : ∀ e ∈ E, e.range.endLine < next)
    (hEeq : ∀ e1 ∈ E, ∀ e2 ∈ E, e1.range = e2.range)
    (hT1 : ∀ t ∈ T, next ≤ t.range.startLine)
    (hT2 : ∀ t1 ∈ T, ∀ t2 ∈ T, rangesSeparated t1 t2) :
    ∀ r1 ∈ E ++ T, ∀ r2 ∈ E ++ T, rangesSeparated r1 r2 := by
  intro r1 h1 r2 h2
  rcases List.mem_append.mp h1 with h1e | h1t <;>
    rcases List.mem_append.mp h2 with h2e | h2t
  · exact Or.inl (hEeq _ h1e _ h2e)
  · exact Or.inr (Or.inl (lt_of_lt_of_le (hE1 _ h1e) (hT1 _ h2t)))
  · exact Or.inr (Or.inr (lt_of_lt_of_le (hE1 _ h2e) (hT1 _ h1t)))
  · exact hT2 _ h1t _ h2t

lemma pyParseLoop_sep (doc : TextDocument) (lines : List (List Char)) :
    ∀ fuel i, ∀ r1 ∈ pyParseLoop doc lines fuel i,
      ∀ r2 ∈ pyParseLoop doc lines fuel i, rangesSeparated r1 r2 := by
  intro fuel
  induction fuel with
  | zero => intro i r1 hr1; simp [pyParseLoop] at hr1
  | succ n ih =>
    intro i
    simp only [pyParseLoop]
    split
    · split
      · exact ih (i + 1)
      · split
        · -- from-import matched
          split
          · -- record produced
            rename_i pc hpc X imp next heq
            have hspec := pyParseFromImport_spec doc lines i pc.1 pc.2
            rw [heq] at hspec
            have himp := hspec.1 imp rfl
            refine segment_sep [imp] (pyParseLoop doc lines n next) next
              ?_ ?_ ?_ ?_
            · intro e he
              rcases List.mem_singleton.mp he with rfl
              omega
            · intro e1 he1 e2 he2
              rcases List.mem_singleton.mp he1 with rfl
              rcases List.mem_singleton.mp he2 with rfl
              rfl
            · intro t ht
              exact pyParseLoop_lo doc lines n next t ht
            · exact ih next
          · rename_i pc hpc X next heq
            exact ih next
        · split
          · -- multi-import matched
            rename_i grp heqg
            refine segment_sep (pyParseMultiImport doc lines i grp)
              (pyParseLoop doc lines n (i + 1)) (i + 1) ?_ ?_ ?_ ?_
            · intro e he
              rw [pyParseMultiImport_range doc lines i grp e he]
              simp [pyLineRange]
            · intro e1 he1 e2 he2
              rw [pyParseMultiImport_range doc lines i grp e1 he1,
                pyParseMultiImport_range doc lines i grp e2 he2]
            · intro t ht
              exact pyParseLoop_lo doc lines n (i + 1) t ht
            · exact ih (i + 1)
          · split
            · -- simple import matched
              split
              · refine segment_sep _ (pyParseLoop doc lines n (i + 1)) (i + 1)
                  ?_ ?_ ?_ ?_
                · intro e he
                  rcases List.mem_singleton.mp he with rfl
                  simp [pyLineRange]
                · intro e1 he1 e2 he2
                  rcases List.mem_singleton.mp he1 with rfl
                  rcases List.mem_singleton.mp he2 with rfl
                  rfl
                · intro t ht
                  exact pyParseLoop_lo doc lines n (i + 1) t ht
                · exact ih (i + 1)
              · refine segment_sep [] (pyParseLoop doc lines n (i + 1)) (i + 1)
                  ?_ ?_ ?_ ?_
                · intro e he
                  simp at he
                · intro e1 he1
                  simp at he1
                · intro t ht
                  exact pyParseLoop_lo doc lines n (i + 1) t ht
                · exact ih (i + 1)
            · exact ih (i + 1)
    · intro r1 hr1
      simp at hr1

/-- C3 (amended): any two ImportRecords produced by one Python extractor
pass either have the very same source range — which happens exactly for
the several records produced from a single multi-import line — or lie on
disjoint line intervals; records from distinct statements never
overlap. -/
theorem c3_amended_ranges (doc : TextDocument) :
    ∀ r1 ∈ (pythonParse doc).imports, ∀ r2 ∈ (pythonParse doc).imports,
      rangesSeparated r1 r2 := by
  intro r1 h1 r2 h2
  exact pyParseLoop_sep doc (splitOnChar '\n' doc.text)
    (splitOnChar '\n' doc.text).length 0 r1 h1 r2 h2

/-- The record produced by the C3 witness document. -/
def impA : ImportInfo :=
  { packageName := ['a'], importStatement := "import a".data,
    language := .python, range := ⟨0, 0, 0, 8⟩, fileUri := [] }

/-- A single-import Python document for the C3 witness. -/
def pyDocSimpleA : TextDocument :=
  { languageId := "python".data, text := "import a".data, uri := [] }

/-- C3 witness: the amended theorem applied at a concrete document and
record. -/
theorem c3_amended_ranges_witness : rangesSeparated impA impA :=
  c3_amended_ranges pyDocSimpleA impA (by decide) impA (by decide)

/-! ## Named-import parsing, JS side, and claim C2 -/

/-- `JsTsParser.parseNamedImports` (src/src/parsers/jstsParser.ts, lines
179-188): split on commas, keep the part before an `as`-alias, trim, drop
empties. -/
def jsParseNamedImports (namedImportsStr : List Char) : List (List Char) :=
  ((splitOnChar ',' namedImportsStr).map
      (fun item => jsTrim (asSplitHead (jsTrim item)))).filter
    (fun name => decide (0 < name.length))

lemma wordChar_not_space (c : Char) (h : isWordChar c = true) :
    jsSpace c = false := by
  cases hc : jsSpace c
  · rfl
  · exfalso
    simp only [jsSpace, Bool.or_eq_true, decide_eq_true_eq] at hc
    rcases hc with ((((h1 | h1) | h1) | h1) | h1) | h1 <;>
      (subst h1; exact absurd h (by decide))

lemma dropWhile_eq_self_of_head (p : Char → Bool) (s : List Char)
    (h : ∀ c, s.head? = some c → p c = false) : s.dropWhile p = s := by
  cases s with
  | nil => rfl
  | cons c cs =>
    rw [List.dropWhile_cons, if_neg]
    simp [h c rfl]

lemma jsTrim_eq_self (s : List Char)
    (h1 : ∀ c, s.head? = some c → jsSpace c = false)
    (h2 : ∀ c, s.getLast? = some c → jsSpace c = false) : jsTrim s = s := by
  unfold jsTrim
  rw [dropWhile_eq_self_of_head _ s h1,
    dropWhile_eq_self_of_head _ s.reverse
      (fun c hc => h2 c (by rwa [List.head?_reverse] at hc))]
  exact List.reverse_reverse s

lemma asSplitHead_append_as (o a : List Char)
    (ho : ∀ c ∈ o, isWordChar c = true) :
    asSplitHead (o ++ ' ' :: 'a' :: 's' :: ' ' :: a) = o := by
  induction o with
  | nil =>
    show asSplitHead (' ' :: 'a' :: 's' :: ' ' :: a) = []
    simp only [asSplitHead]
    rw [if_pos]
    refine ⟨by decide, ?_⟩
    simp [asBoundary, List.dropWhile_cons, jsSpace]
  | cons c o' ih =>
    have hcw := ho c (List.mem_cons_self _ _)
    show asSplitHead (c :: (o' ++ ' ' :: 'a' :: 's' :: ' ' :: a)) = c :: o'
    simp only [asSplitHead]
    rw [if_neg, ih (fun x hx => ho x (List.mem_cons_of_mem _ hx))]
    intro hand
    rw [wordChar_not_space c hcw] at hand
    exact Bool.noConfusion hand.1

lemma getLast?_append_right (l1 l2 : List Char) (h : l2 ≠ []) :
    (l1 ++ l2).getLast? = l2.getLast? := by
  induction l1 with
  | nil => rfl
  | cons c cs ih =>
    rw [List.cons_append, List.getLast?_cons, ih]
    cases hb : l2.getLast? with
    | none => exact absurd (List.getLast?_eq_none_iff.mp hb) h
    | some b => simp

lemma getLast?_mem (l : List Char) (c : Char) (h : l.getLast? = some c) :
    c ∈ l := by
  induction l with
  | nil => simp at h
  | cons x xs ih =>
    rw [List.getLast?_cons] at h
    simp only [Option.some.injEq] at h
    cases hxs : xs.getLast? with
    | none =>
      rw [hxs] at h
      simp only [Option.getD_none] at h
      simp [← h]
    | some b =>
      rw [hxs] at h
      simp only [Option.getD_some] at h
      subst h
      exact List.mem_cons_of_mem _ (ih hxs)

/-- C2 (amended): for a `orig as alias` element (made of word characters),
`namedBindings` keeps the original name, not the alias: both the Python
and the JS/TS named-import parsers map `orig as alias` to `[orig]`. -/
theorem c2_amended_named_bindings (o a : List Char) (ho1 : o ≠ []) (ha1 : a ≠ [])
    (ho : ∀ c ∈ o, isWordChar c = true) (ha : ∀ c ∈ a, isWordChar c = true) :
    pyParseNamedImports (o ++ ' ' :: 'a' :: 's' :: ' ' :: a) = [o] ∧
      jsParseNamedImports (o ++ ' ' :: 'a' :: 's' :: ' ' :: a) = [o] := by
  have hmem : ∀ c ∈ o ++ ' ' :: 'a' :: 's' :: ' ' :: a,
      isWordChar c = true ∨ c = ' ' := by
    intro c hc
    rcases List.mem_append.mp hc with h | h
    · exact Or.inl (ho c h)
    · simp only [List.mem_cons] at h
      rcases h with rfl | rfl | rfl | rfl | h
      · exact Or.inr rfl
      · exact Or.inl (by decide)
      · exact Or.inl (by decide)
      · exact Or.inr rfl
      · exact Or.inl (ha c h)
  have hnotmem : ∀ x : Char, isWordChar x = false → ¬ x = ' ' →
      x ∉ o ++ ' ' :: 'a' :: 's' :: ' ' :: a := by
    intro x hx1 hx2 hm
    rcases hmem x hm with h | h
    · rw [hx1] at h; exact Bool.noConfusion h
    · exact hx2 h
  obtain ⟨co, o', rfl⟩ : ∃ co o', o = co :: o' := by
    cases o with
    | nil => exact absurd rfl ho1
    | cons x xs => exact ⟨x, xs, rfl⟩
  obtain ⟨la, hla⟩ : ∃ la, a.getLast? = some la := by
    cases hl : a.getLast? with
    | none => exact absurd (List.getLast?_eq_none_iff.mp hl) ha1
    | some x => exact ⟨x, rfl⟩
  have hlaw : isWordChar la = true := ha la (getLast?_mem a la hla)
  have hhead : ∀ c, ((co :: o') ++ ' ' :: 'a' :: 's' :: ' ' :: a).head? = some c →
      jsSpace c = false := by
    intro c hc
    simp only [List.cons_append, List.head?, Option.some.injEq] at hc
    subst hc
    exact wordChar_not_space _ (ho co (List.mem_cons_self _ _))
  have hlastS : ∀ c, ((co :: o') ++ ' ' :: 'a' :: 's' :: ' ' :: a).getLast? = some c →
      jsSpace c = false := by
    intro c hc
    rw [getLast?_append_right _ _ (by simp),
      show (' ' :: 'a' :: 's' :: ' ' :: a) = [' ', 'a', 's', ' '] ++ a from rfl,
      getLast?_append_right _ _ ha1, hla] at hc
    cases hc
    exact wordChar_not_space _ hlaw
  have htrimS : jsTrim ((co :: o') ++ ' ' :: 'a' :: 's' :: ' ' :: a) =
      (co :: o') ++ ' ' :: 'a' :: 's' :: ' ' :: a :=
    jsTrim_eq_self _ hhead hlastS
  have htrimO : jsTrim (co :: o') = co :: o' := by
    refine jsTrim_eq_self _ ?_ ?_
    · intro c hc
      simp only [List.head?, Option.some.injEq] at hc
      subst hc
      exact wordChar_not_space _ (ho co (List.mem_cons_self _ _))
    · intro c hc
      exact wordChar_not_space _ (ho c (getLast?_mem _ c hc))
  have hsplit : splitOnChar ',' ((co :: o') ++ ' ' :: 'a' :: 's' :: ' ' :: a) =
      [(co :: o') ++ ' ' :: 'a' :: 's' :: ' ' :: a] :=
    splitOnChar_single ',' _ (hnotmem ',' (by decide) (by decide))
  have hash : asSplitHead ((co :: o') ++ ' ' :: 'a' :: 's' :: ' ' :: a) = co :: o' :=
    asSplitHead_append_as _ a ho
  have honotstar : ¬ (co :: o') = ['*'] := by
    intro h
    have := ho '*' (by rw [h]; exact List.mem_cons_self _ _)
    exact absurd this (by decide)
  have hfilter : ((co :: o') ++ ' ' :: 'a' :: 's' :: ' ' :: a).filter
      (fun ch => ch ≠ '(' ∧ ch ≠ ')') =
      (co :: o') ++ ' ' :: 'a' :: 's' :: ' ' :: a := by
    refine List.filter_eq_self.mpr ?_
    intro c hc
    have h1 : ¬ c = '(' := by
      intro h; subst h; exact hnotmem '(' (by decide) (by decide) hc
    have h2 : ¬ c = ')' := by
      intro h; subst h; exact hnotmem ')' (by decide) (by decide) hc
    simp [h1, h2]
  constructor
  · simp only [pyParseNamedImports]
    rw [hfilter, hsplit]
    simp only [List.map_cons, List.map_nil]
    rw [htrimS, hash, htrimO]
    have hb : (!decide (co = '*') || !decide (o' = [])) = true := by
      by_cases h1 : co = '*'
      · subst h1
        by_cases h2 : o' = []
        · exact absurd (by rw [h2]) honotstar
        · simp [h2]
      · simp [h1]
    simp [List.filter, hb]
  · simp only [jsParseNamedImports]
    rw [hsplit]
    simp only [List.map_cons, List.map_nil]
    rw [htrimS, hash, htrimO]
    simp [List.filter]

/-- C2 witness: the amended theorem at `b as c`. -/
theorem c2_amended_named_bindings_witness :
    pyParseNamedImports (['b'] ++ ' ' :: 'a' :: 's' :: ' ' :: ['c']) = [['b']] ∧
      jsParseNamedImports (['b'] ++ ' ' :: 'a' :: 's' :: ' ' :: ['c']) = [['b']] :=
  c2_amended_named_bindings ['b'] ['c'] (by decide) (by decide)
    (by decide) (by decide)

/-! ## A small backtracking regex engine

The JS/TS extractor applies four regexes to the whole text.  Every
quantifier in them ranges over a single character class, so a regex is a
tree of the constructors below, and JS semantics (ordered alternation,
greedy quantifiers with backtracking, leftmost match) is exactly: try the
alternatives of each node in order, a quantifier offering its longest
consumption first, and take the first complete success. -/

inductive RE where
  | str : List Char → RE
  | cls : (Char → Bool) → RE
  | plus : (Char → Bool) → RE
  | star : (Char → Bool) → RE
  | opt : RE → RE
  | alt : RE → RE → RE
  | cat : RE → RE → RE
  | grp : Nat → RE → RE

/-- Capture groups: group index paired with captured text.  Each group
index occurs at most once in the regexes below, so lookup order never
matters. -/
abbrev Captures := List (Nat × List Char)

/-- All ways a regex can match a prefix of `s`, in JS preference order;
each entry is the remaining suffix and the captures made on that path. -/
def reMatches : RE → List Char → List (List Char × Captures)
  | .str p, s => if p.isPrefixOf s then [(s.drop p.length, [])] else []
  | .cls f, s =>
    match s with
    | c :: rest => if f c then [(rest, [])] else []
    | [] => []
  | .plus f, s =>
    (List.range (s.takeWhile f).length).map
      (fun k => (s.drop ((s.takeWhile f).length - k), []))
  | .star f, s =>
    (List.range ((s.takeWhile f).length + 1)).map
      (fun k => (s.drop ((s.takeWhile f).length - k), []))
  | .opt r, s => reMatches r s ++ [(s, [])]
  | .alt a b, s => reMatches a s ++ reMatches b s
  | .cat a b, s =>
    (reMatches a s).flatMap
      (fun q => (reMatches b q.1).map (fun q2 => (q2.1, q.2 ++ q2.2)))
  | .grp i r, s =>
    (reMatches r s).map
      (fun q => (q.1, q.2 ++ [(i, s.take (s.length - q.1.length))]))

def capLookup (caps : Captures) (i : Nat) : Option (List Char) :=
  (List.find? (fun p => p.1 == i) caps).map (fun p => p.2)

/-- First (JS-preferred) match of the whole pattern at the start of `s`:
matched length and captures. -/
def reFindAt (re : RE) (s : List Char) : Option (Nat × Captures) :=
  match reMatches re s with
  | [] => none
  | q :: _ => some (s.length - q.1.length, q.2)

/-- Leftmost match: index into `s`, matched length, captures. -/
def reSearch (re : RE) : List Char → Option (Nat × Nat × Captures)
  | [] =>
    match reFindAt re [] with
    | some lc => some (0, lc.1, lc.2)
    | none => none
  | c :: rest =>
    match reFindAt re (c :: rest) with
    | some lc => some (0, lc.1, lc.2)
    | none => (reSearch re rest).map (fun m => (m.1 + 1, m.2))

/-- The `while exec` loop of a global regex: successive leftmost matches,
the next search starting right after the previous match (all the source
regexes match at least one character, so `fuel = text.length + 1` never
runs out before the search is exhausted). -/
def reScanAll (re : RE) : Nat → Nat → List Char → List (Nat × Nat × Captures)
  | 0, _, _ => []
  | fuel + 1, base, s =>
    match reSearch re s with
    | none => []
    | some m =>
      (base + m.1, m.2.1, m.2.2) ::
        reScanAll re fuel (base + m.1 + m.2.1) (s.drop (m.1 + m.2.1))

def reExecAll (re : RE) (text : List Char) : List (Nat × Nat × Captures) :=
  reScanAll re (text.length + 1) 0 text

/-- `document.positionAt`: offset to (line, character). -/
def positionAt (text : List Char) (offset : Nat) : Pos :=
  ⟨(text.take offset).count '\n',
    ((text.take offset).reverse.takeWhile (fun c => !(c == '\n'))).length⟩

def mkRangeOffsets (text : List Char) (i j : Nat) : Range :=
  ⟨(positionAt text i).line, (positionAt text i).character,
    (positionAt text j).line, (positionAt text j).character⟩

/-! ## JS/TS import extractor (src/src/parsers/jstsParser.ts) -/

def quoteChar (c : Char) : Bool := c = '\'' || c = '"'

def nonQuoteChar (c : Char) : Bool := !(quoteChar c)

def nonRBraceChar (c : Char) : Bool := !(c == '}')

def reSeq (l : List RE) : RE := l.foldr RE.cat (RE.str [])

def kwConst : List Char := "const".data
def kwLet : List Char := "let".data
def kwVar : List Char := "var".data
def kwRequire : List Char := "require".data
def kwExport : List Char := "export".data

/-- `ES6_IMPORT_REGEX` (jstsParser.ts, lines 10-11):
`/import\s+(?:(?:(\w+)(?:\s*,\s*)?)?(?:\{([^}]+)\})?(?:\s*,\s*(\w+))?\s+from\s+)?['"]([^'"]+)['"]/g`. -/
def es6ImportRE : RE :=
  reSeq [
    .str kwImport,
    .plus jsSpace,
    .opt (reSeq [
      .opt (reSeq [.grp 1 (.plus isWordChar),
        .opt (reSeq [.star jsSpace, .str [','], .star jsSpace])]),
      .opt (reSeq [.str ['{'], .grp 2 (.plus nonRBraceChar), .str ['}']]),
      .opt (reSeq [.star jsSpace, .str [','], .star jsSpace,
        .grp 3 (.plus isWordChar)]),
      .plus jsSpace, .str kwFrom, .plus jsSpace]),
    .cls quoteChar, .grp 4 (.plus nonQuoteChar), .cls quoteChar]

/-- `REQUIRE_REGEX` (jstsParser.ts, lines 14-15):
`/(?:const|let|var)\s+(?:(\w+)|\{([^}]+)\})\s*=\s*require\s*\(\s*['"]([^'"]+)['"]\s*\)/g`. -/
def requireRE : RE :=
  reSeq [
    .alt (.str kwConst) (.alt (.str kwLet) (.str kwVar)),
    .plus jsSpace,
    .alt (.grp 1 (.plus isWordChar))
      (reSeq [.str ['{'], .grp 2 (.plus nonRBraceChar), .str ['}']]),
    .star jsSpace, .str ['='], .star jsSpace,
    .str kwRequire, .star jsSpace, .str ['('], .star jsSpace,
    .cls quoteChar, .grp 3 (.plus nonQuoteChar), .cls quoteChar,
    .star jsSpace, .str [')']]

/-- `DYNAMIC_IMPORT_REGEX` (jstsParser.ts, line 18):
`/import\s*\(\s*['"]([^'"]+)['"]\s*\)/g`. -/
def dynamicImportRE : RE :=
  reSeq [
    .str kwImport, .star jsSpace, .str ['('], .star jsSpace,
    .cls quoteChar, .grp 1 (.plus nonQuoteChar), .cls quoteChar,
    .star jsSpace, .str [')']]

/-- `REEXPORT_REGEX` (jstsParser.ts, line 21):
`/export\s+(?:\*|\{[^}]+\})\s+from\s+['"]([^'"]+)['"]/g`. -/
def reexportRE : RE :=
  reSeq [
    .str kwExport, .plus jsSpace,
    .alt (.str ['*']) (reSeq [.str ['{'], .plus nonRBraceChar, .str ['}']]),
    .plus jsSpace, .str kwFrom, .plus jsSpace,
    .cls quoteChar, .grp 1 (.plus nonQuoteChar), .cls quoteChar]

/-- `JsTsParser.getLanguage` (jstsParser.ts, lines 23-29). -/
def jsGetLanguage (doc : TextDocument) : Language :=
  if doc.languageId = "typescript".data ∨ doc.languageId = "typescriptreact".data
  then .typescript else .javascript

/-- `JsTsParser.parseES6Imports` (jstsParser.ts, lines 58-91). -/
def jsParseES6 (doc : TextDocument) (text : List Char) : List ImportInfo :=
  (reExecAll es6ImportRE text).filterMap (fun m =>
    if isRelativeImport ((capLookup m.2.2 4).getD []) then none
    else some {
      packageName := getTopLevelPackage ((capLookup m.2.2 4).getD [])
      importStatement := (text.drop m.1).take m.2.1
      language := jsGetLanguage doc
      range := mkRangeOffsets text m.1 (m.1 + m.2.1)
      fileUri := doc.uri
      namedImports := (capLookup m.2.2 2).map jsParseNamedImports
      isDefaultImport :=
        some ((capLookup m.2.2 1).isSome || (capLookup m.2.2 3).isSome)
      isRequire := some false })

/-- `JsTsParser.parseRequires` (jstsParser.ts, lines 93-125). -/
def jsParseRequires (doc : TextDocument) (text : List Char) : List ImportInfo :=
  (reExecAll requireRE text).filterMap (fun m =>
    if isRelativeImport ((capLookup m.2.2 3).getD []) then none
    else some {
      packageName := getTopLevelPackage ((capLookup m.2.2 3).getD [])
      importStatement := (text.drop m.1).take m.2.1
      language := jsGetLanguage doc
      range := mkRangeOffsets text m.1 (m.1 + m.2.1)
      fileUri := doc.uri
      namedImports := (capLookup m.2.2 2).map jsParseNamedImports
      isDefaultImport := some (capLookup m.2.2 1).isSome
      isRequire := some true })

/-- `JsTsParser.parseDynamicImports` (jstsParser.ts, lines 127-151). -/
def jsParseDynamic (doc : TextDocument) (text : List Char) : List ImportInfo :=
  (reExecAll dynamicImportRE text).filterMap (fun m =>
    if isRelativeImport ((capLookup m.2.2 1).getD []) then none
    else some {
      packageName := getTopLevelPackage ((capLookup m.2.2 1).getD [])
      importStatement := (text.drop m.1).take m.2.1
      language := jsGetLanguage doc
      range := mkRangeOffsets text m.1 (m.1 + m.2.1)
      fileUri := doc.uri
      isRequire := some false })

/-- `JsTsParser.parseReexports` (jstsParser.ts, lines 153-177). -/
def jsParseReexports (doc : TextDocument) (text : List Char) : List ImportInfo :=
  (reExecAll reexportRE text).filterMap (fun m =>
    if isRelativeImport ((capLookup m.2.2 1).getD []) then none
    else some {
      packageName := getTopLevelPackage ((capLookup m.2.2 1).getD [])
      importStatement := (text.drop m.1).take m.2.1
      language := jsGetLanguage doc
      range := mkRangeOffsets text m.1 (m.1 + m.2.1)
      fileUri := doc.uri
      isRequire := some false })

/-- `JsTsParser.parse` (jstsParser.ts, lines 31-56).  Nothing in the four
passes can throw, so `errors` stays empty. -/
def jstsParse (doc : TextDocument) : ParseResult :=
  { imports := deduplicateImports
      (jsParseES6 doc doc.text ++ jsParseRequires doc doc.text ++
        jsParseDynamic doc doc.text ++ jsParseReexports doc doc.text)
    errors := [] }

/-! ## Parser dispatch (src/unnamed/part_001, lines 15-59) -/

inductive ParserKind where
  | python
  | jsts
deriving DecidableEq, Repr

/-- The supported language tags of `isSupportedLanguage`. -/
def supportedLanguages : List (List Char) :=
  ["python".data, "javascript".data, "typescript".data,
    "javascriptreact".data, "typescriptreact".data]

/-- `getParser` (src/unnamed/part_001, lines 15-29): the `switch` on the
document's language id. -/
def getParser (languageId : List Char) : Option ParserKind :=
  if languageId = "python".data then some .python
  else if languageId = "javascript".data then some .jsts
  else if languageId = "typescript".data then some .jsts
  else if languageId = "javascriptreact".data then some .jsts
  else if languageId = "typescriptreact".data then some .jsts
  else none

/-- `parseImports` (src/unnamed/part_001, lines 34-45). -/
def parseImports (doc : TextDocument) : ParseResult :=
  match getParser doc.languageId with
  | none =>
    { imports := []
      errors := ["Unsupported language: ".data ++ doc.languageId] }
  | some .python => pythonParse doc
  | some .jsts => jstsParse doc

/-- `isSupportedLanguage` (src/unnamed/part_001, lines 50-59). -/
def isSupportedLanguage (doc : TextDocument) : Bool :=
  supportedLanguages.contains doc.languageId

/-- C8: for every document whose language tag is not a supported tag, the
parse entry point returns an empty import list together with exactly one
descriptive error string (and, being a total function, never throws). -/
theorem c8_unsupported_language (doc : TextDocument)
    (h : doc.languageId ∉ supportedLanguages) :
    parseImports doc =
      { imports := []
        errors := ["Unsupported language: ".data ++ doc.languageId] } := by
  have hg : getParser doc.languageId = none := by
    unfold getParser
    rw [if_neg (fun he => h (by rw [he]; decide)),
      if_neg (fun he => h (by rw [he]; decide)),
      if_neg (fun he => h (by rw [he]; decide)),
      if_neg (fun he => h (by rw [he]; decide)),
      if_neg (fun he => h (by rw [he]; decide))]
  unfold parseImports
  rw [hg]

/-- A document with an unsupported language tag. -/
def rubyDoc : TextDocument :=
  { languageId := "ruby".data, text := [], uri := [] }

/-- C8 witness: the theorem applied at a concrete unsupported document. -/
theorem c8_unsupported_language_witness :
    parseImports rubyDoc =
      { imports := []
        errors := ["Unsupported language: ".data ++ rubyDoc.languageId] } :=
  c8_unsupported_language rubyDoc (by decide)

/-! ## Claim C6: ES module import shapes -/

/-- A JS document with a namespace import. -/
def jsDocNs : TextDocument :=
  { languageId := "javascript".data, text := "import * as ns from 'pkg'".data,
    uri := [] }

/-- A JS document with a default import. -/
def jsDocDefault : TextDocument :=
  { languageId := "javascript".data, text := "import abc from 'pkg'".data,
    uri := [] }

/-- A JS document with a named-binding block. -/
def jsDocNamed : TextDocument :=
  { languageId := "javascript".data, text := "import { a, b } from 'pkg'".data,
    uri := [] }

/-- A JS document with both a default binding and a named block. -/
def jsDocBoth : TextDocument :=
  { languageId := "javascript".data, text := "import abc, { b } from 'pkg'".data,
    uri := [] }

/-- C6 counterexample: the extractor does not recognize the namespace
form — `import * as ns from 'pkg'` produces no ImportRecord at all
(`ES6_IMPORT_REGEX` has no alternative matching `* as`), contradicting
the claim that every ES module import shape including the namespace form
is recognized. -/
theorem c6_counterexample : (jstsParse jsDocNs).imports = [] := by rfl

/-- C6 (amended): the extractor recognizes ES module imports with an
optional default binding and an optional named-binding block, and
`isDefaultBinding` is true exactly when a default binding is present; the
namespace form `import * as ns from 'pkg'` is not recognized and yields
no record. -/
theorem c6_amended_es6_shapes :
    ((jstsParse jsDocDefault).imports.map
        (fun r => (r.packageName, r.isDefaultImport, r.namedImports))) =
      [("pkg".data, some true, none)] ∧
    ((jstsParse jsDocNamed).imports.map
        (fun r => (r.packageName, r.isDefaultImport, r.namedImports))) =
      [("pkg".data, some false, some [['a'], ['b']])] ∧
    ((jstsParse jsDocBoth).imports.map
        (fun r => (r.packageName, r.isDefaultImport, r.namedImports))) =
      [("pkg".data, some true, some [['b']])] ∧
    (jstsParse jsDocNs).imports.length = 0 := by
  exact ⟨by rfl, by rfl, by rfl, by rfl⟩

/-! ## Python usage tracker (src/src/parsers/pythonUsageTracker.ts) -/

inductive UsageType where
  | function_call
  | attribute_access
  | class_instantiation
  | reference
deriving DecidableEq, Repr

/-- `UsageLocation` (src/src/models/usageInfo.ts, lines 7-16). -/
structure UsageLocation where
  range : Range
  identifier : List Char
  usageType : UsageType
deriving DecidableEq, Repr

/-- `UsageInfo` (src/src/models/usageInfo.ts, lines 21-30); the optional
`deprecationInfo` field is never set by the tracker and is omitted. -/
structure UsageInfo where
  importInfo : ImportInfo
  usageLocations : List UsageLocation
deriving DecidableEq, Repr

/-- `UsageTrackingResult` (src/src/models/usageInfo.ts, lines 35-41). -/
structure UsageTrackingResult where
  usages : List UsageInfo
  totalUsageCount : Nat
deriving DecidableEq, Repr

/-- The follow-character class of the usage pattern
`[.([\s,)\]:}=+\-*/<>!&|^%@]` (pythonUsageTracker.ts, line 113). -/
def followChar (c : Char) : Bool :=
  c = '.' || c = '(' || c = '[' || jsSpace c || c = ',' || c = ')' ||
    c = ']' || c = ':' || c = '}' || c = '=' || c = '+' || c = '-' ||
    c = '*' || c = '/' || c = '<' || c = '>' || c = '!' || c = '&' ||
    c = '|' || c = '^' || c = '%' || c = '@'

/-- The lookahead `(?=\s*[class])`.  The class contains every `\s`
character, so the lookahead succeeds exactly when the next character
exists and is in the class: a whitespace head satisfies the class
directly, and for a non-whitespace head the greedy `\s*` must be empty. -/
def followOk (rest : List Char) : Bool :=
  match rest with
  | [] => false
  | c :: _ => followChar c

/-- Does the usage pattern `(?<!\w)ID(?=\s*[class])` match at offset `j`? -/
def usageMatchAt (identifier text : List Char) (j : Nat) : Bool :=
  identifier.isPrefixOf (text.drop j) &&
    (decide (j = 0) || !(isWordChar (text.getD (j - 1) ' '))) &&
    followOk (text.drop (j + identifier.length))

/-- The global `exec` loop over the usage pattern: leftmost matches, each
next search starting after the matched identifier. -/
def usageScanAux (identifier text : List Char) : Nat → Nat → List Nat
  | 0, _ => []
  | fuel + 1, j =>
    if j ≤ text.length then
      if usageMatchAt identifier text j then
        j :: usageScanAux identifier text fuel (j + identifier.length)
      else usageScanAux identifier text fuel (j + 1)
    else []

/-- All match offsets of the usage pattern (empty identifier guard as in
`findIdentifierUsages`, lines 104-107). -/
def usagePositionsRaw (identifier text : List Char) : List Nat :=
  if identifier = [] then []
  else usageScanAux identifier text (text.length + 1) 0

/-- JS `text.lastIndexOf(c, fromIdx)` as an option (the source adds one
to the `-1` case; a negative `fromIndex` is clamped to 0, which the `Nat`
subtraction at the call site reproduces). -/
def lastIdxLe (c : Char) (text : List Char) (fromIdx : Nat) : Option Nat :=
  match firstIdxOf c (text.take (fromIdx + 1)).reverse with
  | some k => some ((text.take (fromIdx + 1)).length - 1 - k)
  | none => none

/-- Count of non-overlapping occurrences of a triple `qqq`, as the global
regexes `/'''/g` and `/"""/g` count them. -/
def countTriple (q : Char) : List Char → Nat
  | a :: b :: c :: rest =>
    if a = q ∧ b = q ∧ c = q then 1 + countTriple q rest
    else countTriple q (b :: c :: rest)
  | _ => 0

/-- The line containing an offset and the offset within that line, as
computed by `isWithinCommentOrString` (pythonUsageTracker.ts, lines
156-159). -/
def lineAround (text : List Char) (position : Nat) : List Char × Nat :=
  ((text.take
      (match firstIdxOf '\n' (text.drop position) with
        | some k => position + k
        | none => text.length)).drop
    (match lastIdxLe '\n' text (position - 1) with
      | some i => i + 1
      | none => 0),
   position -
    (match lastIdxLe '\n' text (position - 1) with
      | some i => i + 1
      | none => 0))

/-- The per-line body of `isWithinCommentOrString` (lines 161-182): an
earlier `#` on the line, else odd quote parity (single and double
tracked separately, three quotes deducted per triple occurrence); the
source's early returns become a disjunction. -/
def codeLineDiscard (line : List Char) (posInLine : Nat) : Bool :=
  (match firstIdxOf '#' line with
    | some cs => decide (cs < posInLine)
    | none => false) ||
  decide ((((line.take posInLine).count '\'' : Int) -
      3 * countTriple '\'' (line.take posInLine)) % 2 ≠ 0) ||
  decide ((((line.take posInLine).count '"' : Int) -
      3 * countTriple '"' (line.take posInLine)) % 2 ≠ 0)

/-- `PythonUsageTracker.isWithinCommentOrString` (lines 155-183). -/
def isWithinCommentOrString (position : Nat) (text : List Char) : Bool :=
  codeLineDiscard (lineAround text position).1 (lineAround text position).2

def posLe (p q : Pos) : Bool :=
  p.line < q.line || (p.line = q.line && p.character ≤ q.character)

/-- `vscode.Range.contains` for ranges. -/
def rangeContains (outer inner : Range) : Bool :=
  posLe ⟨outer.startLine, outer.startChar⟩ ⟨inner.startLine, inner.startChar⟩ &&
    posLe ⟨inner.endLine, inner.endChar⟩ ⟨outer.endLine, outer.endChar⟩

/-- Group 1 of `/(\w+)\s*$/`: the maximal word run right before the
trailing whitespace of `s`, if non-empty. -/
def trailingWordRun (s : List Char) : Option (List Char) :=
  if ((s.reverse.dropWhile jsSpace).takeWhile isWordChar) = [] then none
  else some ((s.reverse.dropWhile jsSpace).takeWhile isWordChar).reverse

/-- `PythonUsageTracker.determineUsageType` (lines 188-213).  The JS
uppercase test `name[0] === toUpperCase && name[0] !== toLowerCase` is
`Char.isUpper` on the ASCII identifiers this tracker sees. -/
def determineUsageType (text : List Char) (posAfter : Nat) : UsageType :=
  if (jsTrim ((text.drop posAfter).take 10)).head? = some '(' then
    match trailingWordRun ((text.take posAfter).drop (posAfter - 50)) with
    | some name =>
      match name.head? with
      | some c => if c.isUpper then .class_instantiation else .function_call
      | none => .function_call
    | none => .function_call
  else if (jsTrim ((text.drop posAfter).take 10)).head? = some '.' then
    .attribute_access
  else .reference

/-- Match offsets that survive the import-statement filter and the
comment/string filter of `findIdentifierUsages` (lines 118-131). -/
def usagePositions (identifier text : List Char) (imp : ImportInfo) : List Nat :=
  (usagePositionsRaw identifier text).filter (fun p =>
    !(rangeContains imp.range (mkRangeOffsets text p (p + identifier.length))) &&
      !(isWithinCommentOrString p text))

/-- `PythonUsageTracker.findIdentifierUsages` (lines 97-143). -/
def findIdentifierUsages (identifier text : List Char) (imp : ImportInfo) :
    List UsageLocation :=
  (usagePositions identifier text imp).map (fun p =>
    { range := mkRangeOffsets text p (p + identifier.length)
      identifier := identifier
      usageType := determineUsageType text (p + identifier.length) })

/-- The alias regex `/import\s+[\w.]+\s+as\s+(\w+)/` of
`getIdentifiersFromImport` (lines 63-65). -/
def pyAliasRE : RE :=
  reSeq [.str kwImport, .plus jsSpace, .plus wordDotChar, .plus jsSpace,
    .str kwAs, .plus jsSpace, .grp 1 (.plus isWordChar)]

/-- Is there a `\b` word boundary at offset `j`? -/
def wordBoundaryAt (text : List Char) (j : Nat) : Bool :=
  ((decide (j ≠ 0)) && isWordChar (text.getD (j - 1) ' ')) !=
    ((decide (j < text.length)) && isWordChar (text.getD j ' '))

/-- Match of `NAME\s+as\s+(\w+)` at offset `j` (after the `\b` check);
the classes are disjoint, so greedy matching is deterministic. -/
def namedAliasMatchAt (name text : List Char) (j : Nat) : Option (List Char) :=
  if name.isPrefixOf (text.drop j) then
    match dropWs1 ((text.drop j).drop name.length) with
    | some r1 =>
      if kwAs.isPrefixOf r1 then
        match dropWs1 (r1.drop 2) with
        | some r2 =>
          if r2.takeWhile isWordChar = [] then none
          else some (r2.takeWhile isWordChar)
        | none => none
      else none
    | none => none
  else none

def findNamedAliasAux (name text : List Char) : Nat → Nat → Option (List Char)
  | 0, _ => none
  | fuel + 1, j =>
    if j ≤ text.length then
      if wordBoundaryAt text j then
        match namedAliasMatchAt name text j with
        | some al => some al
        | none => findNamedAliasAux name text fuel (j + 1)
      else findNamedAliasAux name text fuel (j + 1)
    else none

/-- First match of `` `\b${name}\s+as\s+(\w+)` `` in the import
statement (lines 75-77). -/
def findNamedAlias (name text : List Char) : Option (List Char) :=
  findNamedAliasAux name text (text.length + 1) 0

/-- `parts[parts.length - 1]` of a `.`-split (line 87-88). -/
def lastDotSegment (pn : List Char) : List Char :=
  (splitOnChar '.' pn).getLastD []

/-- `PythonUsageTracker.getIdentifiersFromImport` (lines 59-92). -/
def getIdentifiersFromImport (imp : ImportInfo) : List (List Char) :=
  match reSearch pyAliasRE imp.importStatement with
  | some m => [(capLookup m.2.2 1).getD []]
  | none =>
    match imp.namedImports with
    | some named =>
      if named ≠ [] then
        named.map (fun n =>
          match findNamedAlias n imp.importStatement with
          | some al => al
          | none => n)
      else [lastDotSegment imp.packageName]
    | none => [lastDotSegment imp.packageName]

/-- `PythonUsageTracker.findUsagesForImport` (lines 38-51). -/
def findUsagesForImport (doc : TextDocument) (imp : ImportInfo) :
    List UsageLocation :=
  (getIdentifiersFromImport imp).flatMap
    (fun idf => findIdentifierUsages idf doc.text imp)

/-- `PythonUsageTracker.trackUsages` (lines 17-33): one pass over the
imports, collecting only imports with at least one usage and summing the
location counts. -/
def trackUsages (doc : TextDocument) : List ImportInfo → UsageTrackingResult
  | [] => ⟨[], 0⟩
  | imp :: rest =>
    if 0 < (findUsagesForImport doc imp).length then
      ⟨⟨imp, findUsagesForImport doc imp⟩ :: (trackUsages doc rest).usages,
        (trackUsages doc rest).totalUsageCount +
          (findUsagesForImport doc imp).length⟩
    else trackUsages doc rest

/-- `trackPythonUsages` (lines 226-232). -/
def trackPythonUsages (doc : TextDocument) (imports : List ImportInfo) :
    UsageTrackingResult :=
  trackUsages doc imports

/-! ## Claim C4: the comment/string discard rule -/

lemma countTriple_le (q : Char) : (s : List Char) →
    3 * countTriple q s ≤ s.count q
  | [] => by simp [countTriple]
  | [a] => by simp [countTriple]
  | [a, b] => by simp [countTriple]
  | a :: b :: c :: rest => by
    by_cases h : a = q ∧ b = q ∧ c = q
    · obtain ⟨ha, hb, hc⟩ := h
      have ih := countTriple_le q rest
      rw [(by simp [countTriple, ha, hb, hc] :
        countTriple q (a :: b :: c :: rest) = 1 + countTriple q rest),
        ha, hb, hc]
      simp only [List.count_cons_self]
      omega
    · have ih := countTriple_le q (b :: c :: rest)
      simp only [countTriple, if_neg h]
      simp only [List.count_cons] at ih ⊢
      omega

lemma firstIdxOf_getD (c d : Char) (s : List Char) (i : Nat)
    (h : firstIdxOf c s = some i) : s.getD i d = c := by
  induction s generalizing i with
  | nil => simp [firstIdxOf] at h
  | cons x xs ih =>
    simp only [firstIdxOf] at h
    split at h
    · rename_i hx
      have : i = 0 := by simpa using h.symm
      subst this
      simpa using hx
    · rcases hrec : firstIdxOf c xs with _ | j
      · rw [hrec] at h; simp at h
      · rw [hrec] at h
        simp only [Option.map_some'] at h
        have : i = j + 1 := by simpa using h.symm
        subst this
        simpa using ih j hrec

lemma firstIdxOf_min (c d : Char) (s : List Char) (i k : Nat)
    (h : firstIdxOf c s = some i) (hk : k < i) : ¬ s.getD k d = c := by
  induction s generalizing i k with
  | nil => simp [firstIdxOf] at h
  | cons x xs ih =>
    simp only [firstIdxOf] at h
    split at h
    · have : i = 0 := by simpa using h.symm
      omega
    · rename_i hx
      rcases hrec : firstIdxOf c xs with _ | j
      · rw [hrec] at h; simp at h
      · rw [hrec] at h
        simp only [Option.map_some'] at h
        have : i = j + 1 := by simpa using h.symm
        subst this
        cases k with
        | zero => simpa using fun he => hx he
        | succ k0 => simpa using ih j k0 hrec (by omega)

lemma firstIdxOf_none_getD (c d : Char) (s : List Char) (k : Nat)
    (h : firstIdxOf c s = none) (hd : ¬ d = c) : ¬ s.getD k d = c := by
  induction s generalizing k with
  | nil => simpa using hd
  | cons x xs ih =>
    simp only [firstIdxOf] at h
    split at h
    · simp at h
    · rename_i hx
      rcases hrec : firstIdxOf c xs with _ | j
      · cases k with
        | zero => simpa using fun he => hx he
        | succ k0 => simpa using ih k0 hrec
      · rw [hrec] at h; simp at h

lemma commentPart_eq (line : List Char) (n : Nat) :
    (match firstIdxOf '#' line with
      | some cs => decide (cs < n)
      | none => false) =
    ((List.range n).any (fun i => decide (line.getD i ' ' = '#'))) := by
  rcases hf : firstIdxOf '#' line with _ | cs
  · have hall : ∀ i ∈ List.range n,
        ¬ (decide (line.getD i ' ' = '#')) = true := fun i _ => by
      simp only [decide_eq_true_eq]
      exact firstIdxOf_none_getD '#' ' ' line i hf (by decide)
    exact (List.any_eq_false.mpr hall).symm
  · by_cases hcs : cs < n
    · have hany : (List.range n).any
          (fun i => decide (line.getD i ' ' = '#')) = true :=
        List.any_eq_true.mpr ⟨cs, List.mem_range.mpr hcs,
          by simp only [decide_eq_true_eq]
             exact firstIdxOf_getD '#' ' ' line cs hf⟩
      rw [hany]
      exact decide_eq_true hcs
    · have hall : ∀ i ∈ List.range n,
          ¬ (decide (line.getD i ' ' = '#')) = true := by
        intro i hi
        simp only [decide_eq_true_eq]
        exact firstIdxOf_min '#' ' ' line cs i hf
          (lt_of_lt_of_le (List.mem_range.mp hi) (le_of_not_lt hcs))
      rw [List.any_eq_false.mpr hall]
      exact decide_eq_false hcs

/-- Modelled from the claim wording (C4): "inside a string literal" on a
line prefix — quote count minus three per triple occurrence, odd parity,
single and double quotes tracked separately. -/
def c4InString (s : List Char) : Bool :=
  decide ((s.count '\'' - 3 * countTriple '\'' s) % 2 = 1) ||
    decide ((s.count '"' - 3 * countTriple '"' s) % 2 = 1)

/-- Modelled from the claim wording (C4): discard iff an unescaped `#`
that is outside any string literal occurs earlier on the line, or the
quote parity before the match is odd. -/
def specLineDiscardC4 (line : List Char) (posInLine : Nat) : Bool :=
  ((List.range posInLine).any (fun i =>
      decide (line.getD i ' ' = '#') &&
        (decide (i = 0) || !(decide (line.getD (i - 1) ' ' = '\\'))) &&
        !(c4InString (line.take i)))) ||
    c4InString (line.take posInLine)

def specC4Discard (text : List Char) (position : Nat) : Bool :=
  specLineDiscardC4 (lineAround text position).1 (lineAround text position).2

/-- Modelled from the amended claim wording (C4): discard iff any `#`
occurs strictly earlier on the match's line — regardless of escaping or
of enclosing strings — or the quote parity before the match is odd. -/
def specLineDiscardC4Amended (line : List Char) (posInLine : Nat) : Bool :=
  ((List.range posInLine).any (fun i => decide (line.getD i ' ' = '#'))) ||
    c4InString (line.take posInLine)

def specC4AmendedDiscard (text : List Char) (position : Nat) : Bool :=
  specLineDiscardC4Amended (lineAround text position).1
    (lineAround text position).2

lemma parity_bool_eq (a b : Nat) (h : 3 * b ≤ a) :
    (decide ((((a : Int) - 3 * (b : Int)) % 2 ≠ 0))) =
      decide ((a - 3 * b) % 2 = 1) := by
  rw [decide_eq_decide]
  omega

lemma codeLineDiscard_eq_spec (line : List Char) (n : Nat) :
    codeLineDiscard line n = specLineDiscardC4Amended line n := by
  unfold codeLineDiscard specLineDiscardC4Amended c4InString
  rw [commentPart_eq line n,
    parity_bool_eq _ _ (countTriple_le '\'' (line.take n)),
    parity_bool_eq _ _ (countTriple_le '"' (line.take n)), Bool.or_assoc]

/-- The text of the C4 counterexample, with an identifier match at
offset 10 preceded by a `#` that lies inside a string literal. -/
def c4CexText : List Char := "x = '#' ; np.y".data

/-- An import record away from line 0, for the C4 counterexample. -/
def impC4 : ImportInfo :=
  { packageName := "np".data, importStatement := "import numpy as np".data,
    language := .python, range := ⟨5, 0, 5, 18⟩, fileUri := [] }

/-- C4 counterexample: at offset 10 of `x = '#' ; np.y` the `#` lies
inside a string literal, so by the claim the match must not be
discarded; the code discards it (plain `indexOf('#')`), and the `np`
match there is dropped from the usage positions. -/
theorem c4_counterexample :
    isWithinCommentOrString 10 c4CexText = true ∧
      specC4Discard c4CexText 10 = false ∧
      10 ∈ usagePositionsRaw ("np".data) c4CexText ∧
      10 ∉ usagePositions ("np".data) c4CexText impC4 := by
  exact ⟨by rfl, by rfl, by decide, by decide⟩

/-- C4 (amended): a match is discarded by `isWithinCommentOrString` iff
any `#` occurs strictly earlier on the match's line (regardless of
escaping or enclosing strings), or the single- or double-quote count
before the match on that line (minus three per triple-quote occurrence)
is odd. -/
theorem c4_amended_discard (position : Nat) (text : List Char) :
    isWithinCommentOrString position text = specC4AmendedDiscard text position := by
  unfold isWithinCommentOrString specC4AmendedDiscard
  exact codeLineDiscard_eq_spec _ _

/-! ## Claim C5: matches without a follow character are never reported -/

lemma usageScanAux_mem (identifier text : List Char) :
    ∀ fuel j p, p ∈ usageScanAux identifier text fuel j →
      usageMatchAt identifier text p = true := by
  intro fuel
  induction fuel with
  | zero => intro j p hp; simp [usageScanAux] at hp
  | succ n ih =>
    intro j p hp
    simp only [usageScanAux] at hp
    split at hp
    · split at hp
      · rename_i hm
        rcases List.mem_cons.mp hp with rfl | h
        · exact hm
        · exact ih _ p h
      · exact ih _ p hp
    · simp at hp

/-- C5: an occurrence of a bound identifier that is not followed by one
of the fixed usage-context follow characters (the lookahead fails, e.g. a
bare identifier at the very end of the text) is never among the match
positions of the Usage Locator, raw or filtered. -/
theorem c5_no_follow_never_reported (identifier text : List Char)
    (imp : ImportInfo) (p : Nat)
    (h : followOk (text.drop (p + identifier.length)) = false) :
    p ∉ usagePositionsRaw identifier text ∧
      p ∉ usagePositions identifier text imp := by
  have hraw : p ∉ usagePositionsRaw identifier text := by
    intro hp
    unfold usagePositionsRaw at hp
    split at hp
    · simp at hp
    · have hm := usageScanAux_mem identifier text _ _ p hp
      simp only [usageMatchAt, Bool.and_eq_true] at hm
      rw [h] at hm
      exact Bool.noConfusion hm.2
  refine ⟨hraw, fun hp => hraw ?_⟩
  unfold usagePositions at hp
  exact (List.mem_filter.mp hp).1

def impC5 : ImportInfo :=
  { packageName := "np".data, importStatement := "import numpy as np".data,
    language := .python, range := ⟨0, 0, 0, 18⟩, fileUri := [] }

/-- C5 witness: a bare `np` at the end of the text has no follow
character and is not reported. -/
theorem c5_no_follow_never_reported_witness :
    4 ∉ usagePositionsRaw ("np".data) ("x = np".data) ∧
      4 ∉ usagePositions ("np".data) ("x = np".data) impC5 :=
  c5_no_follow_never_reported ("np".data) ("x = np".data) impC5 4 (by rfl)

/-! ## Claim C10: the usage tracker's count and non-empty records -/

/-- C10: `totalUsageCount` is the sum of the lengths of the returned
`usageLocations` lists, and every returned UsageInfo has a non-empty
`usageLocations` list. -/
theorem c10_usage_count (doc : TextDocument) (imports : List ImportInfo) :
    (trackUsages doc imports).totalUsageCount =
        ((trackUsages doc imports).usages.map
          (fun u => u.usageLocations.length)).sum ∧
      ∀ u ∈ (trackUsages doc imports).usages, u.usageLocations ≠ [] := by
  induction imports with
  | nil => exact ⟨rfl, by simp [trackUsages]⟩
  | cons imp rest ih =>
    simp only [trackUsages]
    split
    · rename_i hpos
      constructor
      · simp only [List.map_cons, List.sum_cons]
        rw [ih.1]
        omega
      · intro u hu
        rcases List.mem_cons.mp hu with rfl | h
        · intro hnil
          have hnil2 : findUsagesForImport doc imp = [] := hnil
          rw [hnil2] at hpos
          simp at hpos
        · exact ih.2 u h
    · exact ih

/-- The C10 witness document and import. -/
def c10Doc : TextDocument :=
  { languageId := "python".data, text := "import os\nos.path".data, uri := [] }

def c10Imp : ImportInfo :=
  { packageName := "os".data, importStatement := "import os".data,
    language := .python, range := ⟨0, 0, 0, 9⟩, fileUri := [] }

/-- C10 witness: on a concrete document the returned record's location
list is non-empty. -/
theorem c10_usage_count_witness :
    ((trackUsages c10Doc [c10Imp]).usages.headD ⟨c10Imp, []⟩).usageLocations ≠ [] :=
  (c10_usage_count c10Doc [c10Imp]).2 _ (by decide)
